import Mathlib

/-!
Verification development for the WASM local-file-API filter translator
(`qlocalfileapi.cpp`, namespace `LocalFileApi`).

Strings are modelled as `List Char`.  Each regular expression of the source is
embedded as an explicit matching function whose behaviour coincides with the
PCRE semantics of that concrete pattern (leftmost match, alternation tried in
order, greedy character classes); the `emscripten::val` option objects are
modelled as structures whose `Option` fields record which keys the code sets.
-/

namespace LocalFileApi

/-- ASCII whitespace: the character class matched by `\s` in the source's
regular expressions (PCRE2 without Unicode properties), and the characters
`QStringView::trimmed` removes on the ASCII range. -/
def isQtSpace (c : Char) : Bool :=
  c == ' ' || c == '\t' || c == '\n' || c == '\x0b' || c == '\x0c' || c == '\r'

/-- `QStringView::trimmed`: strip leading and trailing whitespace. -/
def trim (s : List Char) : List Char :=
  ((s.dropWhile isQtSpace).reverse.dropWhile isQtSpace).reverse

/-- Worker for `splitTokens`: walks the string, accumulating the current run
of non-whitespace characters (in reverse) in `acc`. -/
def splitTokensAux : List Char → List Char → List (List Char)
  | [], acc => if acc.isEmpty then [] else [acc.reverse]
  | c :: rest, acc =>
    if isQtSpace c then
      (if acc.isEmpty then [] else [acc.reverse]) ++ splitTokensAux rest []
    else
      splitTokensAux rest (c :: acc)

/-- The token scan of `Type::Accept::fromQt`: repeatedly matching
`([^\s]+)\s*` from the previous match's end yields exactly the maximal runs
of non-whitespace characters, in order. -/
def splitTokens (s : List Char) : List (List Char) :=
  splitTokensAux s []

/-- The anchored pattern `[*]+|[*]+\.[*]+` of
`Type::Accept::MimeType::Extension::fromQt`: the whole token is one or more
`*`, or one or more `*`, then `.`, then one or more `*`. -/
def isWildcardToken (t : List Char) : Bool :=
  let stars := t.takeWhile (fun c => c == '*')
  if stars.isEmpty then false
  else
    -- by maximality of `takeWhile`, the head of the remainder is not a `*`,
    -- so the second alternative requires it to be `.` followed by stars
    match t.dropWhile (fun c => c == '*') with
    | [] => true
    | c :: rest => c == '.' && !rest.isEmpty && rest.all (fun x => x == '*')

/-- The `(\.[^*]+)` part of the anchored pattern `(\*?)(\.[^*]+)`: a literal
`.` followed by one or more non-`*` characters, to the end of the token.
Returns capture group 2 (the `.` and everything after it). -/
def dotMatch : List Char → Option (List Char)
  | [] => none
  | c :: rest =>
    if c == '.' then
      if rest.isEmpty then none
      else if rest.all (fun x => x != '*') then some (c :: rest) else none
    else none

/-- The anchored pattern `(\*?)(\.[^*]+)` as a whole: an optional single
leading `*` (group 1), then `dotMatch` (group 2); if the token does not
start with `*`, group 1 matches the empty string. -/
def extensionMatch : List Char → Option (List Char)
  | [] => none
  | c :: rest => if c == '*' then dotMatch rest else dotMatch (c :: rest)

/-- `Type::Accept::MimeType::Extension::fromQt`: reject pure-wildcard tokens,
then require the token to be an extension filter and return the extension. -/
def Extension.fromQt (qtRepresentation : List Char) : Option (List Char) :=
  if isWildcardToken qtRepresentation then none
  else extensionMatch qtRepresentation

/-- The token loop of `Type::Accept::fromQt`: parse every token with
`Extension.fromQt`; the first failure aborts the whole parse, otherwise the
extensions are collected in token order (`MimeType::addExtension`). -/
def mapExtensions : List (List Char) → Option (List (List Char))
  | [] => some []
  | t :: ts =>
    match Extension.fromQt t, mapExtensions ts with
    | some e, some es => some (e :: es)
    | _, _ => none

/-- `Type::Accept`: the storage object holds one MimeType array under the
fixed key `application/octet-stream` (`Accept::addMimeType`). -/
structure Accept where
  mimeGroup : List (List Char)
  deriving DecidableEq

/-- `Type::Accept::fromQt`: tokenize on whitespace, parse every token,
fail as a whole if any token fails, and wrap the extensions (possibly zero
of them) as the single MimeType entry. -/
def Accept.fromQt (qtRepresentation : List Char) : Option Accept :=
  (mapExtensions (splitTokens qtRepresentation)).map Accept.mk

/-- A character other than `(` and `)` (the class `[^()]`). -/
def notParen (c : Char) : Bool := !(c == '(' || c == ')')

/-- Alternative `([^(]*)\(([^()]+)\)[^)]*` of the `Type::fromQt` regex, tried
at one start position: a greedy run of non-`(` characters (group 1), a
literal `(`, a nonempty greedy run of non-paren characters (group 2), a
literal `)`, then trailing `[^)]*` which constrains nothing further.
Returns `(group1, group2)` on success. -/
def matchAltA (s : List Char) : Option (List Char × List Char) :=
  let pre := s.takeWhile (fun c => c != '(')
  -- by maximality of `takeWhile`, the head of the remainder (if any) is the
  -- first `(`; similarly below the head after the greedy `[^()]+` run is a
  -- paren, required to be `)`
  match s.dropWhile (fun c => c != '(') with
  | [] => none
  | _ :: post =>
    let run := post.takeWhile notParen
    match post.dropWhile notParen with
    | [] => none
    | c :: _ =>
      if c == ')' then (if run.isEmpty then none else some (pre, run)) else none

/-- Alternative `([^()]+)` of the `Type::fromQt` regex, tried at one start
position: a nonempty greedy run of non-paren characters (group 3). -/
def matchAltB (s : List Char) : Option (List Char) :=
  let run := s.takeWhile notParen
  if run.isEmpty then none else some run

/-- Unanchored match of `(?:(?:([^(]*)\(([^()]+)\)[^)]*)|([^()]+))` against
the spec string: PCRE tries both alternatives (in order) at each start
position, left to right; the first success wins.  Returns
`(some group1, group2)` for the parenthesized alternative and
`(none, group3)` for the plain one, mirroring `hasCaptured`. -/
def typeRegexMatch : List Char → Option (Option (List Char) × List Char)
  | [] => none
  | c :: rest =>
    match matchAltA (c :: rest) with
    | some (p, r) => some (some p, r)
    | none =>
      match matchAltB (c :: rest) with
      | some r => some (none, r)
      | none => typeRegexMatch rest

/-- The file-type object (class `Type` of the source; renamed because `Type`
is a Lean universe).  The constructor always sets the `description` key, so
`description = some _` whenever the value was built by `mkQt`; `accept`
records whether the `accept` key was set. -/
structure FileType where
  description : Option (List Char)
  accept : Option Accept
  deriving DecidableEq

/-- `Type::Type(description, accept)`: unconditionally store the trimmed
description; store `accept` only when engaged. -/
def FileType.mkQt (description : List Char) (accept : Option Accept) : FileType :=
  ⟨some (trim description), accept⟩

/-- `Type::fromQt`: match the spec string against the two-shape regex, take
the description from group 1 when captured (a null view, i.e. the empty
string, otherwise), the filter list from group 2 or group 3, and parse the
filter list; failure of either stage fails the whole parse. -/
def FileType.fromQt (type : List Char) : Option FileType :=
  match typeRegexMatch type with
  | none => none
  | some (descOpt, filterList) =>
    match Accept.fromQt filterList with
    | none => none
    | some accept => some (FileType.mkQt (descOpt.getD []) (some accept))

/-- `qtFilterListToTypes`: parse every filter spec, keep the successes in
input order, and return nothing when the resulting array is empty. -/
def qtFilterListToTypes (filterList : List (List Char)) : Option (List FileType) :=
  let types := filterList.filterMap FileType.fromQt
  if types.length == 0 then none else some types

/-- The options object handed to the browser picker: each field records
whether the corresponding key was set by the code. -/
structure DialogOptions where
  types : Option (List FileType)
  excludeAcceptAllOption : Option Bool
  multiple : Option Bool
  suggestedName : Option (List Char)
  deriving DecidableEq

/-- `makeOpenFileOptions`: set `types` and `excludeAcceptAllOption = true`
exactly when `qtFilterListToTypes` produced a value; always set `multiple`. -/
def makeOpenFileOptions (filterList : List (List Char)) (acceptMultiple : Bool) :
    DialogOptions :=
  match qtFilterListToTypes filterList with
  | some ts => ⟨some ts, some true, some acceptMultiple, none⟩
  | none => ⟨none, none, some acceptMultiple, none⟩

/-- `makeSaveFileOptions`: set `suggestedName` when nonempty and `types` when
`qtFilterListToTypes` produced a value; no other key is ever set. -/
def makeSaveFileOptions (filterList : List (List Char)) (suggestedName : List Char) :
    DialogOptions :=
  let sn := if suggestedName.isEmpty then none else some suggestedName
  match qtFilterListToTypes filterList with
  | some ts => ⟨some ts, none, none, sn⟩
  | none => ⟨none, none, none, sn⟩

/-- The pure-wildcard token shape as the specification words it: one or more
`*` characters, or one or more `*`, then `.`, then one or more `*`. -/
def PureWildcard (t : List Char) : Prop :=
  (t ≠ [] ∧ ∀ c ∈ t, c = '*') ∨
  ∃ a b, a ≠ [] ∧ b ≠ [] ∧ (∀ c ∈ a, c = '*') ∧ (∀ c ∈ b, c = '*') ∧
    t = a ++ '.' :: b

/-- The specification's invariant on extensions: nonempty, begins with `.`,
contains no `*`. -/
def ExtensionInvariant (e : List Char) : Prop :=
  e ≠ [] ∧ e.head? = some '.' ∧ '*' ∉ e

/-! ## Helper lemmas -/

theorem takeWhile_all_eq (p : Char → Bool) (l : List Char)
    (h : ∀ c ∈ l, p c = true) :
    l.takeWhile p = l ∧ l.dropWhile p = [] := by
  induction l with
  | nil => simp
  | cons c l ih =>
    have hc : p c = true := h c (by simp)
    have ht := ih (fun x hx => h x (by simp [hx]))
    simp [List.takeWhile_cons, List.dropWhile_cons, hc, ht.1, ht.2]

theorem mapExtensions_eq (ts : List (List Char)) :
    mapExtensions ts =
      if ts.all (fun t => (Extension.fromQt t).isSome)
      then some (ts.filterMap Extension.fromQt) else none := by
  induction ts with
  | nil => simp [mapExtensions]
  | cons t ts ih =>
    cases h : Extension.fromQt t with
    | none => simp [mapExtensions, h, ih]
    | some e =>
      by_cases hall : ts.all (fun t => (Extension.fromQt t).isSome)
      · simp [mapExtensions, h, ih, hall, List.filterMap_cons]
      · simp [mapExtensions, h, ih, hall]

theorem splitTokensAux_all_space (s : List Char)
    (h : ∀ c ∈ s, isQtSpace c = true) : splitTokensAux s [] = [] := by
  induction s with
  | nil => simp [splitTokensAux]
  | cons c s ih =>
    have hc : isQtSpace c = true := h c (by simp)
    simp [splitTokensAux, hc, ih (fun x hx => h x (by simp [hx]))]

/-! ## Claim theorems -/

/-- Claim C1: `makeOpenFileOptions` collects into `types` exactly the
successfully parsed filter specs, in input order (duplicates permitted,
failures contributing nothing); when no spec parses the `types` and
`excludeAcceptAllOption` keys are both omitted, otherwise both are present
with `excludeAcceptAllOption = true`; `multiple` is always set to the given
flag (and no `suggestedName` is set). -/
theorem makeOpenFileOptions_spec (fl : List (List Char)) (m : Bool) :
    (makeOpenFileOptions fl m).multiple = some m ∧
    (makeOpenFileOptions fl m).types =
      (if fl.filterMap FileType.fromQt = [] then none
       else some (fl.filterMap FileType.fromQt)) ∧
    (makeOpenFileOptions fl m).excludeAcceptAllOption =
      (if fl.filterMap FileType.fromQt = [] then none else some true) ∧
    (makeOpenFileOptions fl m).suggestedName = none := by
  unfold makeOpenFileOptions qtFilterListToTypes
  by_cases h : fl.filterMap FileType.fromQt = []
  · simp [h]
  · simp [h, List.length_eq_zero]

/-- Claim C2: `Accept.fromQt` splits the extension-list text on runs of
whitespace and parses every token; one failing token fails the whole parse,
and on success the extensions appear in token order.  In particular
`"*.png *.jpg"` yields `[".png", ".jpg"]` and `"*.png bad*name"` fails. -/
theorem Accept_fromQt_allOrNothing :
    (∀ text : List Char,
      Accept.fromQt text =
        if (splitTokens text).all (fun t => (Extension.fromQt t).isSome)
        then some ⟨(splitTokens text).filterMap Extension.fromQt⟩
        else none) ∧
    Accept.fromQt ("*.png *.jpg".toList) = some ⟨[".png".toList, ".jpg".toList]⟩ ∧
    Accept.fromQt ("*.png bad*name".toList) = none := by
  refine ⟨fun text => ?_, by decide, by decide⟩
  unfold Accept.fromQt
  rw [mapExtensions_eq]
  by_cases h : (splitTokens text).all (fun t => (Extension.fromQt t).isSome)
  · simp [h]
  · simp [h]

/-- Claim C10: an extension-list text with no non-whitespace character is
not a parse failure: `Accept.fromQt` yields an accept rule with zero
extensions, and the surrounding file type is kept in the `types` list with
an empty accepted-extensions array (e.g. for the spec `"Images ( )"`). -/
theorem Accept_fromQt_whitespaceOnly :
    (∀ text : List Char, (∀ c ∈ text, isQtSpace c = true) →
        Accept.fromQt text = some ⟨[]⟩) ∧
    (makeOpenFileOptions ["Images ( )".toList] false).types =
      some [⟨some ("Images".toList), some ⟨[]⟩⟩] := by
  constructor
  · intro text h
    unfold Accept.fromQt splitTokens
    rw [splitTokensAux_all_space text h]
    rfl
  · decide

/-- Witness for C10: the single-space text parses to an empty accept rule. -/
theorem Accept_fromQt_whitespaceOnly_witness :
    Accept.fromQt (" ".toList) = some ⟨[]⟩ :=
  Accept_fromQt_whitespaceOnly.1 (" ".toList) (by decide)

theorem isWildcardToken_of_pure (t : List Char) (h : PureWildcard t) :
    isWildcardToken t = true := by
  unfold isWildcardToken
  rcases h with ⟨hne, hall⟩ | ⟨a, b, ha, hb, hsa, hsb, rfl⟩
  · have hp : ∀ c ∈ t, (fun c => c == '*') c = true := by
      intro c hc
      simp [hall c hc]
    have ht := takeWhile_all_eq (fun c => c == '*') t hp
    simp [ht.1, ht.2, hne]
  · have hpa : ∀ c ∈ a, (fun c => c == '*') c = true := by
      intro c hc
      simp [hsa c hc]
    have h1 : (a ++ '.' :: b).takeWhile (fun c => c == '*') = a := by
      rw [List.takeWhile_append_of_pos hpa]
      simp [List.takeWhile_cons]
    have h2 : (a ++ '.' :: b).dropWhile (fun c => c == '*') = '.' :: b := by
      rw [List.dropWhile_append_of_pos hpa]
      simp [List.dropWhile_cons]
    have hballstar : b.all (fun x => x == '*') = true := by
      simp only [List.all_eq_true]
      intro x hx
      simp [hsb x hx]
    simp [h1, h2, ha, hb, hballstar]

theorem not_pureWildcard_of_token (t : List Char)
    (h : isWildcardToken t = false) : ¬ PureWildcard t := by
  intro hp
  rw [isWildcardToken_of_pure t hp] at h
  simp at h

/-- Claim C3: a token that is one or more `*`, or one or more `*` then `.`
then one or more `*` (taken as the whole token), is rejected by
`Extension.fromQt`. -/
theorem Extension_fromQt_pureWildcard (t : List Char) (h : PureWildcard t) :
    Extension.fromQt t = none := by
  unfold Extension.fromQt
  rw [isWildcardToken_of_pure t h]
  rfl

/-- Witness for C3: the token `"*.*"` is rejected. -/
theorem Extension_fromQt_pureWildcard_witness :
    Extension.fromQt ("*.*".toList) = none :=
  Extension_fromQt_pureWildcard ("*.*".toList)
    (Or.inr ⟨['*'], ['*'], by decide, by decide, by decide, by decide, by decide⟩)

/-- Claim C4: on a token that is not pure-wildcard, `Extension.fromQt`
succeeds exactly when the whole token is an optional single leading `*`,
then a literal `.`, then one or more non-`*` characters, and the result is
the part of the token starting at the `.` (the leading `*`, if any,
dropped). -/
theorem Extension_fromQt_shape (t : List Char) (hnw : ¬ PureWildcard t)
    (e : List Char) :
    Extension.fromQt t = some e ↔
      ∃ rest, rest ≠ [] ∧ (∀ c ∈ rest, c ≠ '*') ∧ e = '.' :: rest ∧
        (t = '.' :: rest ∨ t = '*' :: '.' :: rest) := by
  constructor
  · intro h
    unfold Extension.fromQt at h
    by_cases hw : isWildcardToken t
    · simp [hw] at h
    · rw [Bool.not_eq_true] at hw
      rw [hw] at h
      simp only [Bool.false_eq_true, if_false] at h
      cases t with
      | nil => simp [extensionMatch] at h
      | cons c r =>
        by_cases hc : c = '*'
        · subst hc
          simp only [extensionMatch, beq_self_eq_true, if_true] at h
          cases r with
          | nil => simp [dotMatch] at h
          | cons d rs =>
            by_cases hd : d = '.'
            · subst hd
              simp only [dotMatch, beq_self_eq_true, if_true] at h
              by_cases hre : rs.isEmpty
              · simp [hre] at h
              · by_cases hallr : rs.all (fun x => x != '*')
                · simp [hre, hallr] at h
                  subst h
                  refine ⟨rs, by simpa using hre, ?_, rfl, Or.inr rfl⟩
                  intro x hx
                  have := (List.all_eq_true.mp hallr) x hx
                  simpa using this
                · simp [hre, hallr] at h
            · simp [dotMatch, hd] at h
        · simp only [extensionMatch, beq_iff_eq, hc, if_false] at h
          cases hc2 : (c == '.') with
          | false =>
            rw [show dotMatch (c :: r) = none by simp [dotMatch, hc2]] at h
            exact absurd h (by simp)
          | true =>
            have hc' : c = '.' := by simpa using hc2
            subst hc'
            simp only [dotMatch, beq_self_eq_true, if_true] at h
            by_cases hre : r.isEmpty
            · simp [hre] at h
            · by_cases hallr : r.all (fun x => x != '*')
              · simp [hre, hallr] at h
                subst h
                refine ⟨r, by simpa using hre, ?_, rfl, Or.inl rfl⟩
                intro x hx
                have := (List.all_eq_true.mp hallr) x hx
                simpa using this
              · simp [hre, hallr] at h
  · rintro ⟨rest, hne, hns, rfl, rfl | rfl⟩
    · have hw : isWildcardToken ('.' :: rest) = false := by
        unfold isWildcardToken
        simp [List.takeWhile_cons]
      unfold Extension.fromQt
      rw [hw]
      simp only [Bool.false_eq_true, if_false]
      have hall : rest.all (fun x => x != '*') = true := by
        simp only [List.all_eq_true]
        intro x hx
        simp [hns x hx]
      simp [extensionMatch, dotMatch, hne, hall, List.isEmpty_eq_false]
    · have hallstar : rest.all (fun x => x == '*') = false := by
        cases rest with
        | nil => exact absurd rfl hne
        | cons c0 rs =>
          have : c0 ≠ '*' := hns c0 (by simp)
          simp [List.all_cons, this]
      have hw : isWildcardToken ('*' :: '.' :: rest) = false := by
        unfold isWildcardToken
        simp [List.takeWhile_cons, List.dropWhile_cons, hallstar]
      unfold Extension.fromQt
      rw [hw]
      simp only [Bool.false_eq_true, if_false]
      have hall : rest.all (fun x => x != '*') = true := by
        simp only [List.all_eq_true]
        intro x hx
        simp [hns x hx]
      simp [extensionMatch, dotMatch, hne, hall, List.isEmpty_eq_false]

/-- Witness for C4: `".png"` and `"*.png"` both parse to `".png"`. -/
theorem Extension_fromQt_shape_witness :
    Extension.fromQt (".png".toList) = some (".png".toList) ∧
    Extension.fromQt ("*.png".toList) = some (".png".toList) := by
  constructor
  · exact (Extension_fromQt_shape (".png".toList)
      (not_pureWildcard_of_token (".png".toList) (by decide)) (".png".toList)).mpr
      ⟨"png".toList, by decide, by decide, by decide, Or.inl (by decide)⟩
  · exact (Extension_fromQt_shape ("*.png".toList)
      (not_pureWildcard_of_token ("*.png".toList) (by decide)) (".png".toList)).mpr
      ⟨"png".toList, by decide, by decide, by decide, Or.inr (by decide)⟩

theorem dotMatch_invariant (s e : List Char) (h : dotMatch s = some e) :
    ExtensionInvariant e := by
  cases s with
  | nil => simp [dotMatch] at h
  | cons c rest =>
    by_cases hc : c = '.'
    · subst hc
      by_cases hre : rest.isEmpty
      · simp [dotMatch, hre] at h
      · by_cases hall : rest.all (fun x => x != '*')
        · simp [dotMatch, hre, hall] at h
          subst h
          refine ⟨by simp, by simp, ?_⟩
          simp only [List.mem_cons, not_or]
          refine ⟨by decide, ?_⟩
          intro hmem
          have := (List.all_eq_true.mp hall) '*' hmem
          simp at this
        · simp [dotMatch, hre, hall] at h
    · simp [dotMatch, hc] at h

theorem extension_fromQt_invariant (t e : List Char)
    (h : Extension.fromQt t = some e) : ExtensionInvariant e := by
  unfold Extension.fromQt at h
  by_cases hw : isWildcardToken t
  · simp [hw] at h
  · rw [Bool.not_eq_true] at hw
    rw [hw] at h
    simp only [Bool.false_eq_true, if_false] at h
    cases t with
    | nil => simp [extensionMatch] at h
    | cons c r =>
      by_cases hc : c = '*'
      · subst hc
        simp only [extensionMatch, beq_self_eq_true, if_true] at h
        exact dotMatch_invariant r e h
      · simp only [extensionMatch, beq_iff_eq, hc, if_false] at h
        exact dotMatch_invariant (c :: r) e h

theorem mapExtensions_mem (ts : List (List Char)) (es : List (List Char))
    (h : mapExtensions ts = some es) (e : List Char) (he : e ∈ es) :
    ∃ t, Extension.fromQt t = some e := by
  induction ts generalizing es with
  | nil =>
    simp only [mapExtensions, Option.some.injEq] at h
    subst h
    simp at he
  | cons t ts ih =>
    unfold mapExtensions at h
    cases h1 : Extension.fromQt t with
    | none => rw [h1] at h; simp at h
    | some e1 =>
      cases h2 : mapExtensions ts with
      | none => rw [h1, h2] at h; simp at h
      | some es1 =>
        rw [h1, h2] at h
        simp only [Option.some.injEq] at h
        subst h
        rcases List.mem_cons.mp he with rfl | he1
        · exact ⟨t, h1⟩
        · exact ih es1 h2 he1

theorem accept_fromQt_mem (text : List Char) (a : Accept)
    (h : Accept.fromQt text = some a) (e : List Char) (he : e ∈ a.mimeGroup) :
    ∃ t, Extension.fromQt t = some e := by
  unfold Accept.fromQt at h
  cases hm : mapExtensions (splitTokens text) with
  | none => rw [hm] at h; simp at h
  | some es =>
    rw [hm] at h
    simp only [Option.map_some', Option.some.injEq] at h
    subst h
    exact mapExtensions_mem (splitTokens text) es hm e he

theorem fileType_fromQt_accept (spec : List Char) (ty : FileType)
    (h : FileType.fromQt spec = some ty) (a : Accept)
    (ha : ty.accept = some a) :
    ∃ text, Accept.fromQt text = some a := by
  unfold FileType.fromQt at h
  cases hr : typeRegexMatch spec with
  | none => rw [hr] at h; simp at h
  | some pr =>
    rw [hr] at h
    obtain ⟨descOpt, filterList⟩ := pr
    dsimp only at h
    cases hacc : Accept.fromQt filterList with
    | none => rw [hacc] at h; simp at h
    | some acc =>
      rw [hacc] at h
      simp only [Option.some.injEq] at h
      subst h
      simp only [FileType.mkQt, Option.some.injEq] at ha
      subst ha
      exact ⟨filterList, hacc⟩

theorem qtFilterListToTypes_mem (fl : List (List Char)) (ts : List FileType)
    (h : qtFilterListToTypes fl = some ts) (ty : FileType) (hty : ty ∈ ts) :
    ∃ spec, FileType.fromQt spec = some ty := by
  unfold qtFilterListToTypes at h
  by_cases hz : (fl.filterMap FileType.fromQt).length == 0
  · rw [if_pos hz] at h; simp at h
  · rw [if_neg hz] at h
    simp only [Option.some.injEq] at h
    subst h
    obtain ⟨spec, _, hspec⟩ := List.mem_filterMap.mp hty
    exact ⟨spec, hspec⟩

theorem makeOpenFileOptions_types (fl : List (List Char)) (m : Bool)
    (ts : List FileType) (h : (makeOpenFileOptions fl m).types = some ts) :
    qtFilterListToTypes fl = some ts := by
  unfold makeOpenFileOptions at h
  cases hq : qtFilterListToTypes fl with
  | none => rw [hq] at h; simp at h
  | some ts0 =>
    rw [hq] at h
    simp only [Option.some.injEq] at h
    rw [h]

theorem makeSaveFileOptions_types (fl : List (List Char)) (sn : List Char)
    (ts : List FileType) (h : (makeSaveFileOptions fl sn).types = some ts) :
    qtFilterListToTypes fl = some ts := by
  unfold makeSaveFileOptions at h
  cases hq : qtFilterListToTypes fl with
  | none => rw [hq] at h; simp at h
  | some ts0 =>
    rw [hq] at h
    simp only [Option.some.injEq] at h
    rw [h]

/-- Claim C9: every extension produced by `Extension.fromQt` — and hence
every entry of every mime group inside any options object built by
`makeOpenFileOptions` or `makeSaveFileOptions` — is a nonempty string that
begins with `.` and contains no `*`. -/
theorem extension_invariant_spec :
    (∀ t e, Extension.fromQt t = some e → ExtensionInvariant e) ∧
    (∀ fl m ts, (makeOpenFileOptions fl m).types = some ts →
      ∀ ty ∈ ts, ∀ a, ty.accept = some a →
        ∀ e ∈ a.mimeGroup, ExtensionInvariant e) ∧
    (∀ fl sn ts, (makeSaveFileOptions fl sn).types = some ts →
      ∀ ty ∈ ts, ∀ a, ty.accept = some a →
        ∀ e ∈ a.mimeGroup, ExtensionInvariant e) := by
  refine ⟨extension_fromQt_invariant, ?_, ?_⟩
  · intro fl m ts h ty hty a ha e he
    obtain ⟨spec, hspec⟩ :=
      qtFilterListToTypes_mem fl ts (makeOpenFileOptions_types fl m ts h) ty hty
    obtain ⟨text, htext⟩ := fileType_fromQt_accept spec ty hspec a ha
    obtain ⟨t, ht⟩ := accept_fromQt_mem text a htext e he
    exact extension_fromQt_invariant t e ht
  · intro fl sn ts h ty hty a ha e he
    obtain ⟨spec, hspec⟩ :=
      qtFilterListToTypes_mem fl ts (makeSaveFileOptions_types fl sn ts h) ty hty
    obtain ⟨text, htext⟩ := fileType_fromQt_accept spec ty hspec a ha
    obtain ⟨t, ht⟩ := accept_fromQt_mem text a htext e he
    exact extension_fromQt_invariant t e ht

/-- Witness for C9: the token `"*.png"` produces the extension `".png"`,
which satisfies the invariant. -/
theorem extension_invariant_spec_witness : ExtensionInvariant (".png".toList) :=
  extension_invariant_spec.1 ("*.png".toList) (".png".toList) (by decide)

theorem typeRegexMatch_of_altA (s : List Char) (p r : List Char)
    (h : matchAltA s = some (p, r)) : typeRegexMatch s = some (some p, r) := by
  cases s with
  | nil => simp [matchAltA] at h
  | cons c rest => simp [typeRegexMatch, h]

theorem typeRegexMatch_of_altB (s : List Char) (r : List Char)
    (ha : matchAltA s = none) (hb : matchAltB s = some r) :
    typeRegexMatch s = some (none, r) := by
  cases s with
  | nil => simp [matchAltB] at hb
  | cons c rest => simp [typeRegexMatch, ha, hb]

theorem matchAltA_paren (g1 g2 : List Char) (h1 : ∀ c ∈ g1, c ≠ '(')
    (h2 : g2 ≠ []) (h3 : ∀ c ∈ g2, notParen c = true) :
    matchAltA (g1 ++ '(' :: (g2 ++ [')'])) = some (g1, g2) := by
  have hp1 : ∀ c ∈ g1, (fun c => c != '(') c = true := by
    intro c hc
    simp [h1 c hc]
  have ht : (g1 ++ '(' :: (g2 ++ [')'])).takeWhile (fun c => c != '(') = g1 := by
    rw [List.takeWhile_append_of_pos hp1]
    simp [List.takeWhile_cons]
  have hd : (g1 ++ '(' :: (g2 ++ [')'])).dropWhile (fun c => c != '(')
      = '(' :: (g2 ++ [')']) := by
    rw [List.dropWhile_append_of_pos hp1]
    simp [List.dropWhile_cons]
  have hrun : (g2 ++ [')']).takeWhile notParen = g2 := by
    rw [List.takeWhile_append_of_pos h3]
    simp [List.takeWhile_cons, notParen]
  have hdrop : (g2 ++ [')']).dropWhile notParen = [')'] := by
    rw [List.dropWhile_append_of_pos h3]
    simp [List.dropWhile_cons, notParen]
  unfold matchAltA
  rw [ht, hd]
  dsimp only
  rw [hrun, hdrop]
  simp [h2]

/-- Claim C5: a spec of the whole-string shape `GROUP1 (GROUP2)` — a run of
characters free of `(`, then a parenthesized nonempty run free of both
parens — parses with the trimmed `GROUP1` as description and `GROUP2` as the
extension-list text (whose parse failure propagates). -/
theorem FileType_fromQt_parenShape (g1 g2 : List Char)
    (h1 : ∀ c ∈ g1, c ≠ '(') (h2 : g2 ≠ [])
    (h3 : ∀ c ∈ g2, c ≠ '(' ∧ c ≠ ')') :
    FileType.fromQt (g1 ++ '(' :: (g2 ++ [')'])) =
      (Accept.fromQt g2).map (fun a => ⟨some (trim g1), some a⟩) := by
  have h3' : ∀ c ∈ g2, notParen c = true := by
    intro c hc
    simp [notParen, (h3 c hc).1, (h3 c hc).2]
  have hT := typeRegexMatch_of_altA _ g1 g2 (matchAltA_paren g1 g2 h1 h2 h3')
  unfold FileType.fromQt
  rw [hT]
  dsimp only
  cases hacc : Accept.fromQt g2 with
  | none => rfl
  | some a => simp [FileType.mkQt]

/-- Witness for C5: `"Images (*.png *.jpg)"` yields the description
`"Images"` and the extensions `[".png", ".jpg"]`. -/
theorem FileType_fromQt_parenShape_witness :
    FileType.fromQt ("Images ".toList ++ '(' :: ("*.png *.jpg".toList ++ [')'])) =
      some ⟨some ("Images".toList), some ⟨[".png".toList, ".jpg".toList]⟩⟩ := by
  rw [FileType_fromQt_parenShape ("Images ".toList) ("*.png *.jpg".toList)
    (by decide) (by decide) (by decide)]
  decide

/-- Counterexample to claim C6: the input `".png("` contains a `(` but no
complete parenthesized group, so the claim demands a parse failure; the code
instead matches the plain alternative against the prefix `".png"` (partial
consumption) and succeeds. -/
theorem FileType_fromQt_C6_counterexample :
    FileType.fromQt (".png(".toList) = some ⟨some [], some ⟨[".png".toList]⟩⟩ := by
  decide

/-- Amended claim C6: when the input contains no parenthesis at all (and is
nonempty), the entire spec string is the extension-list text and no
description is captured; an input containing parentheses without a complete
`GROUP1 (GROUP2)` group is not necessarily a failure — the first maximal
nonempty run of non-parenthesis characters is used instead, and only inputs
with no such run and no complete group fail. -/
theorem FileType_fromQt_noParens (s : List Char) (hne : s ≠ [])
    (hp : ∀ c ∈ s, c ≠ '(' ∧ c ≠ ')') :
    FileType.fromQt s = (Accept.fromQt s).map (fun a => ⟨some [], some a⟩) := by
  have hp1 : ∀ c ∈ s, (fun c => c != '(') c = true := by
    intro c hc
    simp [(hp c hc).1]
  have hp2 : ∀ c ∈ s, notParen c = true := by
    intro c hc
    simp [notParen, (hp c hc).1, (hp c hc).2]
  have hA : matchAltA s = none := by
    unfold matchAltA
    rw [(takeWhile_all_eq (fun c => c != '(') s hp1).2]
  have hB : matchAltB s = some s := by
    unfold matchAltB
    rw [(takeWhile_all_eq notParen s hp2).1]
    simp [hne]
  have hT := typeRegexMatch_of_altB s s hA hB
  unfold FileType.fromQt
  rw [hT]
  dsimp only
  cases hacc : Accept.fromQt s with
  | none => rfl
  | some a => simp [FileType.mkQt, trim]

/-- Witness for the amended C6: the paren-free spec `"*.png *.jpg"` is used
whole as the extension-list text. -/
theorem FileType_fromQt_noParens_witness :
    FileType.fromQt ("*.png *.jpg".toList) =
      some ⟨some [], some ⟨[".png".toList, ".jpg".toList]⟩⟩ := by
  rw [FileType_fromQt_noParens ("*.png *.jpg".toList) (by decide) (by decide)]
  decide

/-- Counterexample to claim C7: for `makeSaveFileOptions` with the parseable
filter `".png"`, the `types` key is present yet `excludeAcceptAllOption` is
absent — the save path never sets it. -/
theorem makeSaveFileOptions_C7_counterexample :
    (makeSaveFileOptions [".png".toList] []).types ≠ none ∧
    (makeSaveFileOptions [".png".toList] []).excludeAcceptAllOption = none := by
  decide

/-- Amended claim C7: `makeSaveFileOptions` shares the
`qtFilterListToTypes` pipeline and sets `types` exactly when it yields a
value, but never sets `excludeAcceptAllOption` (nor `multiple`); only
`makeOpenFileOptions` sets `excludeAcceptAllOption = true` alongside
`types`.  `suggestedName` is set iff nonempty. -/
theorem makeSaveFileOptions_spec (fl : List (List Char)) (sn : List Char) :
    (makeSaveFileOptions fl sn).excludeAcceptAllOption = none ∧
    (makeSaveFileOptions fl sn).multiple = none ∧
    (makeSaveFileOptions fl sn).types = qtFilterListToTypes fl ∧
    (makeSaveFileOptions fl sn).suggestedName =
      (if sn.isEmpty then none else some sn) := by
  unfold makeSaveFileOptions
  cases qtFilterListToTypes fl <;> simp

/-- Counterexample to claim C8: `FileType.fromQt "*.txt"` succeeds, but the
resulting object's `description` key is present (set to the empty string by
the `Type` constructor), not absent. -/
theorem FileType_fromQt_C8_counterexample :
    (FileType.fromQt ("*.txt".toList)).map FileType.description
      = some (some []) := by
  decide

/-- Amended claim C8: for every spec string parsed via the no-parentheses
shape — the regex match took the plain `([^()]+)` alternative, so group 1
was not captured — the resulting object's `description` key is present but
holds the empty string (the constructor always sets the key, trimming the
null captured view); in particular `"*.txt"` yields that empty description
and the accept list `[".txt"]`. -/
theorem FileType_fromQt_group3_description :
    (∀ s fl : List Char, ∀ ty : FileType,
      typeRegexMatch s = some (none, fl) → FileType.fromQt s = some ty →
        ty.description = some []) ∧
    FileType.fromQt ("*.txt".toList) = some ⟨some [], some ⟨[".txt".toList]⟩⟩ := by
  constructor
  · intro s fl ty hmatch hty
    unfold FileType.fromQt at hty
    rw [hmatch] at hty
    dsimp only at hty
    cases hacc : Accept.fromQt fl with
    | none => rw [hacc] at hty; simp at hty
    | some a =>
      rw [hacc] at hty
      simp only [Option.some.injEq] at hty
      subst hty
      simp [FileType.mkQt, trim]
  · decide

/-- Witness for the amended C8: `"*.txt"` is matched by the plain
alternative (no captured description), and the resulting file type's
description key holds the empty string. -/
theorem FileType_fromQt_group3_description_witness :
    FileType.description ⟨some [], some ⟨[".txt".toList]⟩⟩ = some [] :=
  FileType_fromQt_group3_description.1 ("*.txt".toList) ("*.txt".toList)
    ⟨some [], some ⟨[".txt".toList]⟩⟩ (by decide) (by decide)

end LocalFileApi
